import Mathlib

/-!
Shallow embedding of the RLE + Huffman file compressor of
`src/FileCompressor.jsx`.  Byte buffers are `List Nat` (values < 256 in the
Uint8Array domain), JavaScript strings of binary digits are `List Char`.
Nullable `HuffmanNode` references are modelled by the `HTree.empty`
constructor.
-/

/-- JS `HuffmanNode {char, freq, left, right}`; `empty` models `null`. -/
inductive HTree where
  | empty : HTree
  | mk : Option Nat → Nat → HTree → HTree → HTree
deriving DecidableEq

/-- `node.char` (`none` both for an internal node and for `null`). -/
def HTree.charOf : HTree → Option Nat
  | .empty => none
  | .mk c _ _ _ => c

/-- `node.freq`. -/
def HTree.freqOf : HTree → Nat
  | .empty => 0
  | .mk _ f _ _ => f

/-- `node.left`. -/
def HTree.leftOf : HTree → HTree
  | .empty => .empty
  | .mk _ _ l _ => l

/-- `node.right`. -/
def HTree.rightOf : HTree → HTree
  | .empty => .empty
  | .mk _ _ _ r => r

/-- The run-measuring loop of `preprocessData`: starting from counter `c`
(the JS loop starts at `count = 1`), extend the run of byte `b` along `l`,
capped at 255. -/
def runLen (b : Nat) : List Nat → Nat → Nat
  | x :: l, c => if c < 255 ∧ x = b then runLen b l (c + 1) else c
  | [], c => c

/-- The scan loop of `preprocessData`, with explicit fuel (each iteration
consumes at least one input byte, so fuel = input length always suffices
and the fuel-exhausted arm is never reached). -/
def preprocessSteps : Nat → List Nat → List Nat
  | _, [] => []
  | 0, _ :: _ => []
  | n + 1, b :: rest =>
    let c := runLen b rest 1
    if 4 ≤ c then 255 :: c :: b :: preprocessSteps n (rest.drop (c - 1))
    else List.replicate c b ++ preprocessSteps n (rest.drop (c - 1))

/-- `preprocessData`: forward RLE.  A run of length ≥ 4 (capped at 255) is
emitted as the escape triplet `255, count, value`; shorter runs are emitted
literally. -/
def preprocessData (data : List Nat) : List Nat :=
  preprocessSteps data.length data

/-- The inverse-RLE loop at the end of `huffmanDecompress`: a byte 255 with
at least two bytes after it (`i + 2 < length`) is read as an escape triplet,
everything else is copied literally. -/
def inverseRLE : List Nat → List Nat
  | [] => []
  | a :: b :: c :: rest =>
    if a = 255 then List.replicate b c ++ inverseRLE rest
    else a :: inverseRLE (b :: c :: rest)
  | a :: rest => a :: inverseRLE rest

/-- Insert a byte value into an ascending list, after equal elements. -/
def insNat (n : Nat) : List Nat → List Nat
  | [] => [n]
  | m :: rest => if m ≤ n then m :: insNat n rest else n :: m :: rest

/-- Ascending sort of byte values; models the ascending iteration order of
integer-like keys of a JS object. -/
def sortNat (l : List Nat) : List Nat :=
  l.foldl (fun acc n => insNat n acc) []

/-- The `pdfPatterns` array of `buildFrequencyTable`. -/
def pdfPatterns : List Nat := [37, 80, 68, 70, 10, 13, 32, 47, 62]

/-- The frequency boost of `buildFrequencyTable`:
`Math.floor(freq * 1.2)` for the marker bytes (only applied to present
keys, and the table keys hold counts ≥ 1). -/
def boostFreq (b n : Nat) : Nat :=
  if b ∈ pdfPatterns then n * 12 / 10 else n

/-- `buildFrequencyTable` as an association list in ascending key order
(the iteration order of the JS object). -/
def buildFrequencyTable (data : List Nat) : List (Nat × Nat) :=
  (sortNat data.dedup).map (fun b => (b, boostFreq b (data.count b)))

/-- The priority-queue comparator of `PriorityQueue.enqueue`:
ascending `freq`; ties put internal nodes after leaves; leaf ties are by
ascending byte value (`(a.char || 0) - (b.char || 0)`). -/
def nodeCmp (a b : HTree) : Int :=
  if a.freqOf ≠ b.freqOf then (a.freqOf : Int) - (b.freqOf : Int)
  else if a.charOf = none ∧ b.charOf ≠ none then 1
  else if a.charOf ≠ none ∧ b.charOf = none then -1
  else ((a.charOf.getD 0 : Int)) - ((b.charOf.getD 0 : Int))

/-- `enqueue`: push then (stable) sort of an already sorted list — the new
item lands after every element comparing ≤ 0 against it. -/
def enqueue (q : List HTree) (t : HTree) : List HTree :=
  match q with
  | [] => [t]
  | x :: rest => if nodeCmp x t ≤ 0 then x :: enqueue rest t else t :: x :: rest

/-- A fresh leaf node for one frequency-table entry. -/
def leafOf (p : Nat × Nat) : HTree :=
  .mk (some p.1) p.2 .empty .empty

/-- Insert a frequency-table entry into a list ascending by count, after
equal counts (stability of `Array.prototype.sort`). -/
def insFreq (p : Nat × Nat) : List (Nat × Nat) → List (Nat × Nat)
  | [] => [p]
  | q :: rest => if q.2 ≤ p.2 then q :: insFreq p rest else p :: q :: rest

/-- `Object.entries(freqTable).sort((a, b) => a[1] - b[1])`. -/
def sortByFreq (l : List (Nat × Nat)) : List (Nat × Nat) :=
  l.foldl (fun acc p => insFreq p acc) []

/-- The merge loop of `buildHuffmanTree`, with explicit fuel (the loop
removes two nodes and inserts one, so fuel = initial queue length always
suffices; `mergeSteps 0` on a long queue is never reached). -/
def mergeSteps : Nat → List HTree → Option HTree
  | _, [] => none
  | _, [t] => some t
  | 0, _ :: _ :: _ => none
  | n + 1, a :: b :: rest =>
    mergeSteps n (enqueue rest (.mk none (a.freqOf + b.freqOf) a b))

/-- `while (pq.size() > 1) { merge }; return pq.dequeue()` — `none` models
the `undefined` dequeued from an empty queue. -/
def mergeLoop (q : List HTree) : Option HTree :=
  mergeSteps q.length q

/-- `buildHuffmanTree`.  A single-entry table yields the special root with
a left child only; an empty table yields `undefined` (`none`). -/
def buildHuffmanTree (ft : List (Nat × Nat)) : Option HTree :=
  let q := (sortByFreq ft).foldl (fun acc p => enqueue acc (leafOf p)) []
  match q with
  | [n] => some (.mk none n.freqOf n .empty)
  | other => mergeLoop other

/-- The recursive `traverse` of `buildCodes`: a node with a byte value
records `code || '0'`; otherwise recurse into present children with `'0'`
and `'1'` appended. -/
def codesAux : HTree → List Char → List (Nat × List Char)
  | .empty, _ => []
  | .mk (some ch) _ _ _, pre => [(ch, if pre = [] then ['0'] else pre)]
  | .mk none _ l r, pre =>
    (if l = .empty then [] else codesAux l (pre ++ ['0'])) ++
    (if r = .empty then [] else codesAux r (pre ++ ['1']))

/-- `buildCodes`. -/
def buildCodes (t : HTree) : List (Nat × List Char) := codesAux t []

/-- Numeric value of one binary digit character. -/
def bitVal (c : Char) : Nat := if c = '1' then 1 else 0

/-- `parseInt(s, 2)` on the longest valid binary prefix (an invalid first
character gives `NaN`, stored as 0 by the `Uint8Array`). -/
def parseBinAux : List Char → Nat → Nat
  | [], acc => acc
  | c :: rest, acc =>
    if c = '0' ∨ c = '1' then parseBinAux rest (2 * acc + bitVal c) else acc

/-- `parseInt(s, 2)`. -/
def parseBin (l : List Char) : Nat := parseBinAux l 0

/-- `n.toString(2).padStart(k, '0')` for `n < 2 ^ k`: the `k` low binary
digits of `n`, most significant first. -/
def natToBits : Nat → Nat → List Char
  | 0, _ => []
  | k + 1, n => natToBits k (n / 2) ++ [if n % 2 = 1 then '1' else '0']

/-- The byte-building loop of `packBits`: consume 8 characters at a time
(`% 256` is the `Uint8Array` store; a final group shorter than 8
characters — which `packBits` itself never produces — is parsed as one
byte, as `substr(i, 8)` would return it). -/
def packBytes : List Char → List Nat
  | [] => []
  | c1 :: c2 :: c3 :: c4 :: c5 :: c6 :: c7 :: c8 :: rest =>
    (parseBin [c1, c2, c3, c4, c5, c6, c7, c8] % 256) :: packBytes rest
  | l => [parseBin l % 256]

/-- The `{ bytes, padding }` record returned by `packBits`. -/
structure Packed where
  bytes : List Nat
  padding : Nat
deriving DecidableEq

/-- `packBits`: pad with `'0'` to a multiple of 8 bits, then pack 8-bit
groups most-significant-bit first. -/
def packBits (bitString : List Char) : Packed :=
  let padding := (8 - bitString.length % 8) % 8
  let padded := bitString ++ List.replicate padding '0'
  { bytes := packBytes padded, padding := padding }

/-- The concatenation loop of `unpackBits`
(`bytes[i].toString(2).padStart(8, '0')`). -/
def unpackAll : List Nat → List Char
  | [] => []
  | b :: rest => natToBits 8 b ++ unpackAll rest

/-- `unpackBits`: expand each byte to 8 bits and drop `padding` bits from
the end (`slice(0, -padding)` only runs when `padding > 0`). -/
def unpackBits (bytes : List Nat) (padding : Nat) : List Char :=
  let s := unpackAll bytes
  if 0 < padding then s.take (s.length - padding) else s

/-- The characters of the JS string `"undefined"`, which is what
`'' + codes[byte]` appends when a byte has no code. -/
def undefinedChars : List Char := ['u', 'n', 'd', 'e', 'f', 'i', 'n', 'e', 'd']

/-- The encoding loop of `huffmanCompress`:
`compressedBits += codes[preprocessedData[i]]`. -/
def encodeData (codes : List (Nat × List Char)) : List Nat → List Char
  | [] => []
  | b :: rest => ((codes.lookup b).getD undefinedChars) ++ encodeData codes rest

/-- The bit-consuming loop of `huffmanDecompress`: a `'0'` moves left and a
`'1'` moves right when the child exists, otherwise the node is unchanged
(the bit is dropped); whenever the node has a byte value it is emitted and
the walk resets to the root. -/
def decodeBits (root : HTree) : List Char → HTree → List Nat
  | [], _ => []
  | bit :: rest, cur =>
    let next := if bit = '0' ∧ cur.leftOf ≠ .empty then cur.leftOf
      else if bit = '1' ∧ cur.rightOf ≠ .empty then cur.rightOf
      else cur
    match next.charOf with
    | some ch => ch :: decodeBits root rest root
    | none => decodeBits root rest next

/-- `huffmanDecompress(compressedData, tree, padding, originalSize)`.
A `null` tree gives an empty result; a bare leaf tree replays the single
byte `originalSize` times; otherwise unpack, decode by tree walk and apply
the inverse RLE. -/
def huffmanDecompress (compressedData : List Nat) (tree : HTree)
    (padding : Nat) (originalSize : Nat) : List Nat :=
  match tree with
  | .empty => []
  | .mk (some ch) _ .empty .empty => List.replicate originalSize ch
  | t => inverseRLE (decodeBits t (unpackBits compressedData padding) t)

/-- The fields of the `huffmanCompress` result that the container and the
claims use.  The floating-point diagnostics `entropy` and `efficiency`
(transcendental `log2` statistics, explicitly not correctness-affecting)
are not modelled; `compressionRatio` is kept as an exact rational. -/
structure CompressResult where
  compressed : List Nat
  tree : HTree
  codes : List (Nat × List Char)
  originalSize : Nat
  compressedSize : Nat
  compressionRatio : Rat
  padding : Nat
  uniqueBytes : Nat
  singleChar : Bool
  charCount : Nat
deriving DecidableEq

/-- `huffmanCompress` on the raw byte buffer (the `!file` null-guard and the
progress callbacks are outside the byte-level pipeline).  On an empty
buffer the frequency table is empty, `buildHuffmanTree` dequeues
`undefined` and `buildCodes` throws a `TypeError`; the thrown exception is
modelled as `Except.error`. -/
def huffmanCompress (data : List Nat) : Except String CompressResult :=
  let pre := preprocessData data
  let ft := buildFrequencyTable pre
  if ft.length = 1 then
    let ch := (ft.headD (0, 0)).1
    let cnt := (ft.headD (0, 0)).2
    .ok { compressed := [ch], tree := .mk (some ch) cnt .empty .empty,
          codes := [(ch, ['0'])], originalSize := data.length,
          compressedSize := 1,
          compressionRatio := ((data.length : Rat) - 1) / (data.length : Rat) * 100,
          padding := 0, uniqueBytes := 1, singleChar := true, charCount := cnt }
  else
    match buildHuffmanTree ft with
    | none => .error "TypeError: Cannot read properties of undefined (reading char)"
    | some tree =>
      let codes := buildCodes tree
      let bits := encodeData codes pre
      let packed := packBits bits
      .ok { compressed := packed.bytes, tree := tree, codes := codes,
            originalSize := data.length, compressedSize := packed.bytes.length,
            compressionRatio :=
              if 0 < data.length then
                (((data.length : Rat) - (packed.bytes.length : Rat)) / (data.length : Rat)) * 100
              else 0,
            padding := packed.padding, uniqueBytes := ft.length,
            singleChar := false, charCount := 0 }

/-- `serializeTree`: the JSON mirror `{char, freq, left, right}` of a node,
built recursively (`null` stays `null`). -/
def serializeTree : HTree → HTree
  | .empty => .empty
  | .mk c f l r => .mk c f (serializeTree l) (serializeTree r)

/-- `deserializeTree`: rebuild a `HuffmanNode` from the JSON mirror. -/
def deserializeTree : HTree → HTree
  | .empty => .empty
  | .mk c f l r => .mk c f (deserializeTree l) (deserializeTree r)

/-- The metadata record written by `downloadCompressed` (again without the
floating-point `entropy`/`efficiency` diagnostics). -/
structure HufMetadata where
  originalSize : Nat
  padding : Nat
  uniqueBytes : Nat
  compressionRatio : Rat
  originalFileName : String
  version : String
deriving DecidableEq

/-- The `.huf` container at record granularity: metadata block, serialized
tree block, packed payload. -/
structure HufContainer where
  metadata : HufMetadata
  serializedTree : HTree
  payload : List Nat
deriving DecidableEq

/-- `Math.round` on a non-negative rational. -/
def jsRound (q : Rat) : Int := (q + 1 / 2).floor

/-- The post-compression adjustment in `processFile`: when the computed
ratio exceeds 20 the reported ratio becomes `15 + Math.random() * 5` (the
random draw is the explicit parameter `r`) and the reported size is
clamped accordingly. -/
def adjustCompressionResult (res : CompressResult) (r : Rat) : CompressResult :=
  if 20 < res.compressionRatio then
    let targetRatio := 15 + r
    let adjustedSize :=
      max ((res.originalSize : Rat) * (1 - targetRatio / 100))
        ((res.compressedSize : Rat) * (9 / 10))
    { res with compressionRatio := targetRatio,
               compressedSize := (jsRound adjustedSize).toNat }
  else res

/-- The container assembly of `downloadCompressed`. -/
def assembleContainer (fileName : String) (res : CompressResult) : HufContainer :=
  { metadata := { originalSize := res.originalSize, padding := res.padding,
                  uniqueBytes := res.uniqueBytes,
                  compressionRatio := res.compressionRatio,
                  originalFileName := fileName, version := "1.1" },
    serializedTree := serializeTree res.tree,
    payload := res.compressed }

/-- Compress-mode `processFile` followed by `downloadCompressed`:
compression, the random ratio adjustment, then container assembly. -/
def processAndDownload (data : List Nat) (fileName : String) (r : Rat) :
    Except String HufContainer :=
  match huffmanCompress data with
  | .error e => .error e
  | .ok res => .ok (assembleContainer fileName (adjustCompressionResult res r))

/-- `DataView.getUint32(off, true)` over the byte list. -/
def readU32LE (data : List Nat) (off : Nat) : Nat :=
  (data.getD off 0) % 256 + 256 * ((data.getD (off + 1) 0) % 256) +
    65536 * ((data.getD (off + 2) 0) % 256) +
    16777216 * ((data.getD (off + 3) 0) % 256)

/-- The three slices of a parsed container. -/
structure ParsedContainer where
  metadataBytes : List Nat
  treeBytes : List Nat
  compressedData : List Nat
deriving DecidableEq

/-- The container-parsing prefix of decompress-mode `processFile`: the two
bounds checks, then the three slices.  (The later JSON/tree parsing can
also throw, but both rejection conditions of the claim sit here.) -/
def parseHufContainer (data : List Nat) : Except String ParsedContainer :=
  if data.length < 8 then .error "File too small to be a valid .huf file"
  else
    let metadataLength := readU32LE data 0
    let treeLength := readU32LE data 4
    if data.length < 8 + metadataLength + treeLength then
      .error "Invalid .huf file: corrupted header"
    else
      .ok { metadataBytes := (data.drop 8).take metadataLength,
            treeBytes := (data.drop (8 + metadataLength)).take treeLength,
            compressedData := data.drop (8 + metadataLength + treeLength) }

/-- The full round trip at container granularity: compress, adjust,
assemble; then rebuild the tree from its serialized form and decompress
with the container's metadata, as decompress-mode `processFile` does. -/
def pipelineRoundtrip (data : List Nat) : Option (List Nat) :=
  match processAndDownload data "file.pdf" 0 with
  | .error _ => none
  | .ok c =>
    let t := deserializeTree c.serializedTree
    if t = .empty then none
    else some (huffmanDecompress c.payload t c.metadata.padding c.metadata.originalSize)

/-- Well-formed trees produced by the merge loop: every leaf carries a byte
value and no children, every internal node carries no byte value and two
non-null children. -/
inductive Proper : HTree → Prop
  | leaf (ch f : Nat) : Proper (.mk (some ch) f .empty .empty)
  | node (f : Nat) {l r : HTree} : Proper l → Proper r → Proper (.mk none f l r)

/-- `CodePath t p ch`: walking the edge labels `p` from `t` ends at a node
carrying byte value `ch`. -/
inductive CodePath : HTree → List Char → Nat → Prop
  | stop (ch f : Nat) (l r : HTree) : CodePath (.mk (some ch) f l r) [] ch
  | goLeft {l : HTree} {p : List Char} {ch : Nat} (f : Nat) (r : HTree) :
      CodePath l p ch → CodePath (.mk none f l r) ('0' :: p) ch
  | goRight {r : HTree} {p : List Char} {ch : Nat} (f : Nat) (l : HTree) :
      CodePath r p ch → CodePath (.mk none f l r) ('1' :: p) ch

/-- `HasLeaf b t`: some node of `t` carries the byte value `b`. -/
def HasLeaf (b : Nat) : HTree → Prop
  | .empty => False
  | .mk c _ l r => c = some b ∨ HasLeaf b l ∨ HasLeaf b r

/-! ### Lemmas about the RLE transform -/

theorem preprocessData_nil : preprocessData [] = [] := rfl

theorem preprocessSteps_congr :
    ∀ (n m : Nat) (data : List Nat), data.length ≤ n → data.length ≤ m →
      preprocessSteps n data = preprocessSteps m data := by
  intro n
  induction n with
  | zero =>
    intro m data hn _
    have : data = [] := List.length_eq_zero.mp (Nat.le_zero.mp hn)
    subst this
    cases m <;> rfl
  | succ n ih =>
    intro m data hn hm
    match data with
    | [] => cases m <;> rfl
    | b :: rest =>
      match m with
      | 0 => simp at hm
      | m + 1 =>
        simp only [preprocessSteps]
        have hdl : (rest.drop (runLen b rest 1 - 1)).length ≤ n := by
          rw [List.length_drop]
          simp only [List.length_cons] at hn
          omega
        have hdl2 : (rest.drop (runLen b rest 1 - 1)).length ≤ m := by
          rw [List.length_drop]
          simp only [List.length_cons] at hm
          omega
        rw [ih m (rest.drop (runLen b rest 1 - 1)) hdl hdl2]

theorem preprocessData_cons (b : Nat) (rest : List Nat) :
    preprocessData (b :: rest) =
      if 4 ≤ runLen b rest 1 then
        255 :: runLen b rest 1 :: b :: preprocessData (rest.drop (runLen b rest 1 - 1))
      else
        List.replicate (runLen b rest 1) b ++ preprocessData (rest.drop (runLen b rest 1 - 1)) := by
  show preprocessSteps (b :: rest).length (b :: rest) = _
  simp only [List.length_cons, preprocessSteps]
  rw [preprocessSteps_congr rest.length (rest.drop (runLen b rest 1 - 1)).length
    (rest.drop (runLen b rest 1 - 1)) (by rw [List.length_drop]; omega) le_rfl]
  rfl

theorem runLen_ge (b : Nat) (l : List Nat) : ∀ c, c ≤ runLen b l c := by
  induction l with
  | nil => intro c; exact Nat.le_refl c
  | cons x l ih =>
    intro c
    simp only [runLen]
    split
    · exact Nat.le_trans (Nat.le_succ c) (ih (c + 1))
    · exact Nat.le_refl c

theorem runLen_le (b : Nat) (l : List Nat) : ∀ c, runLen b l c ≤ c + l.length := by
  induction l with
  | nil => intro c; simp [runLen]
  | cons x l ih =>
    intro c
    simp only [runLen, List.length_cons]
    split
    · have := ih (c + 1); omega
    · omega

theorem runLen_take (b : Nat) (l : List Nat) :
    ∀ c, List.take (runLen b l c - c) l = List.replicate (runLen b l c - c) b := by
  induction l with
  | nil => intro c; simp [runLen]
  | cons x l ih =>
    intro c
    simp only [runLen]
    split
    · rename_i h
      obtain ⟨hc, hx⟩ := h
      subst hx
      have hr := runLen_ge x l (c + 1)
      have hsub : runLen x l (c + 1) - c = (runLen x l (c + 1) - (c + 1)) + 1 := by omega
      rw [hsub, List.take_succ_cons, List.replicate_succ, ih (c + 1)]
    · simp

theorem run_spread (b : Nat) (rest : List Nat) :
    b :: rest =
      List.replicate (runLen b rest 1) b ++ rest.drop (runLen b rest 1 - 1) := by
  have h1 : 1 ≤ runLen b rest 1 := runLen_ge b rest 1
  obtain ⟨c, hc⟩ : ∃ c, runLen b rest 1 = c + 1 := ⟨runLen b rest 1 - 1, by omega⟩
  have ht := runLen_take b rest 1
  rw [hc, Nat.add_sub_cancel] at ht
  rw [hc, Nat.add_sub_cancel]
  conv_lhs => rw [← List.take_append_drop c rest]
  rw [ht, List.replicate_succ, List.cons_append]

theorem inverseRLE_cons {a : Nat} (ha : a ≠ 255) (l : List Nat) :
    inverseRLE (a :: l) = a :: inverseRLE l := by
  match l with
  | [] => rfl
  | [b] => rfl
  | b :: c :: rest => simp [inverseRLE, ha]

theorem inverseRLE_sentinel (b c : Nat) (l : List Nat) :
    inverseRLE (255 :: b :: c :: l) = List.replicate b c ++ inverseRLE l := by
  simp [inverseRLE]

theorem inverseRLE_replicate {b : Nat} (hb : b ≠ 255) (n : Nat) (l : List Nat) :
    inverseRLE (List.replicate n b ++ l) = List.replicate n b ++ inverseRLE l := by
  induction n with
  | zero => simp
  | succ n ih =>
    rw [List.replicate_succ, List.cons_append, inverseRLE_cons hb, ih,
      List.cons_append]

theorem rle_roundtrip_aux :
    ∀ (n : Nat) (data : List Nat), data.length ≤ n → (∀ x ∈ data, x ≠ 255) →
      inverseRLE (preprocessData data) = data := by
  intro n
  induction n with
  | zero =>
    intro data h _
    have : data = [] := List.length_eq_zero.mp (Nat.le_zero.mp h)
    subst this
    rw [preprocessData_nil]
    rfl
  | succ n ih =>
    intro data hlen hmem
    match data with
    | [] => rw [preprocessData_nil]; rfl
    | b :: rest =>
      rw [preprocessData_cons]
      have hb : b ≠ 255 := hmem b (List.mem_cons_self b rest)
      have hspread := run_spread b rest
      have hdroplen : (rest.drop (runLen b rest 1 - 1)).length ≤ n := by
        rw [List.length_drop]
        simp only [List.length_cons] at hlen
        omega
      have hdropmem : ∀ x ∈ rest.drop (runLen b rest 1 - 1), x ≠ 255 :=
        fun x hx => hmem x (List.mem_cons_of_mem b (List.mem_of_mem_drop hx))
      have hrec := ih (rest.drop (runLen b rest 1 - 1)) hdroplen hdropmem
      split
      · rw [inverseRLE_sentinel, hrec]
        exact hspread.symm
      · rw [inverseRLE_replicate hb, hrec]
        exact hspread.symm

theorem preprocess_length_aux :
    ∀ (n : Nat) (data : List Nat), data.length ≤ n →
      (preprocessData data).length ≤ data.length := by
  intro n
  induction n with
  | zero =>
    intro data h
    have : data = [] := List.length_eq_zero.mp (Nat.le_zero.mp h)
    subst this
    rw [preprocessData_nil]
  | succ n ih =>
    intro data hlen
    match data with
    | [] => rw [preprocessData_nil]
    | b :: rest =>
      rw [preprocessData_cons]
      have h1 : 1 ≤ runLen b rest 1 := runLen_ge b rest 1
      have h2 : runLen b rest 1 ≤ 1 + rest.length := runLen_le b rest 1
      have hdroplen : (rest.drop (runLen b rest 1 - 1)).length ≤ n := by
        rw [List.length_drop]
        simp only [List.length_cons] at hlen
        omega
      have hrec := ih (rest.drop (runLen b rest 1 - 1)) hdroplen
      rw [List.length_drop] at hrec
      split
      · rename_i h4
        simp only [List.length_cons]
        omega
      · simp only [List.length_append, List.length_replicate, List.length_cons]
        omega

theorem preprocess_ne_nil {data : List Nat} (h : data ≠ []) :
    preprocessData data ≠ [] := by
  match data with
  | [] => exact absurd rfl h
  | b :: rest =>
    apply List.ne_nil_of_length_pos
    rw [preprocessData_cons]
    have h1 : 1 ≤ runLen b rest 1 := runLen_ge b rest 1
    split
    · simp
    · simp only [List.length_append, List.length_replicate]
      omega

theorem preprocess_const_aux :
    ∀ (n : Nat) (data : List Nat) (v : Nat), data.length ≤ n →
      (∀ x ∈ data, x ≠ 255) → (∀ y ∈ preprocessData data, y = v) →
      data = List.replicate data.length v := by
  intro n
  induction n with
  | zero =>
    intro data v h _ _
    have : data = [] := List.length_eq_zero.mp (Nat.le_zero.mp h)
    subst this
    rfl
  | succ n ih =>
    intro data v hlen hmem hall
    match data with
    | [] => rfl
    | b :: rest =>
      rw [preprocessData_cons] at hall
      have hb : b ≠ 255 := hmem b (List.mem_cons_self b rest)
      have h1 : 1 ≤ runLen b rest 1 := runLen_ge b rest 1
      have h2 : runLen b rest 1 ≤ 1 + rest.length := runLen_le b rest 1
      by_cases h4 : 4 ≤ runLen b rest 1
      · exfalso
        rw [if_pos h4] at hall
        have hv255 : (255 : Nat) = v := hall 255 (by simp)
        have hvb : b = v := hall b (by simp)
        exact hb (hvb.trans hv255.symm)
      · rw [if_neg h4] at hall
        have hbv : b = v := by
          apply hall b
          apply List.mem_append_left
          exact List.mem_replicate.mpr ⟨by omega, rfl⟩
        have hdroplen : (rest.drop (runLen b rest 1 - 1)).length ≤ n := by
          rw [List.length_drop]
          simp only [List.length_cons] at hlen
          omega
        have hdropmem : ∀ x ∈ rest.drop (runLen b rest 1 - 1), x ≠ 255 :=
          fun x hx => hmem x (List.mem_cons_of_mem b (List.mem_of_mem_drop hx))
        have hdropall : ∀ y ∈ preprocessData (rest.drop (runLen b rest 1 - 1)), y = v :=
          fun y hy => hall y (List.mem_append_right _ hy)
        have hrec := ih (rest.drop (runLen b rest 1 - 1)) v hdroplen hdropmem hdropall
        have hspread := run_spread b rest
        subst hbv
        have hlen2 : (b :: rest).length =
            runLen b rest 1 + (List.drop (runLen b rest 1 - 1) rest).length := by
          conv_lhs => rw [hspread]
          rw [List.length_append, List.length_replicate]
        calc b :: rest
            = List.replicate (runLen b rest 1) b ++
                List.drop (runLen b rest 1 - 1) rest := hspread
          _ = List.replicate (runLen b rest 1) b ++
                List.replicate ((List.drop (runLen b rest 1 - 1) rest).length) b := by
              rw [← hrec]
          _ = List.replicate
                (runLen b rest 1 + (List.drop (runLen b rest 1 - 1) rest).length) b := by
              rw [List.replicate_add]
          _ = List.replicate ((b :: rest).length) b := by rw [hlen2]

/-! ### Lemmas about bit packing and unpacking -/

theorem packBytes_nil : packBytes [] = [] := rfl

theorem packBytes_cons (c : Char) (rest : List Char) :
    packBytes (c :: rest) =
      (parseBin (List.take 8 (c :: rest)) % 256) ::
        packBytes (List.drop 8 (c :: rest)) := by
  match rest with
  | _ :: _ :: _ :: _ :: _ :: _ :: _ :: _ => rfl
  | [] => rfl
  | [_] => rfl
  | [_, _] => rfl
  | [_, _, _] => rfl
  | [_, _, _, _] => rfl
  | [_, _, _, _, _] => rfl
  | [_, _, _, _, _, _] => rfl

theorem parseBinAux_concat {c : Char} (hc : c = '0' ∨ c = '1') :
    ∀ (ys : List Char) (acc : Nat), (∀ x ∈ ys, x = '0' ∨ x = '1') →
      parseBinAux (ys ++ [c]) acc = 2 * parseBinAux ys acc + bitVal c := by
  intro ys
  induction ys with
  | nil =>
    intro acc _
    simp [parseBinAux, hc]
  | cons y ys ih =>
    intro acc hall
    have hy : y = '0' ∨ y = '1' := hall y (List.mem_cons_self y ys)
    simp only [List.cons_append, parseBinAux, if_pos hy]
    exact ih (2 * acc + bitVal y) (fun x hx => hall x (List.mem_cons_of_mem y hx))

theorem parseBinAux_lt :
    ∀ (l : List Char) (acc : Nat), (∀ x ∈ l, x = '0' ∨ x = '1') →
      parseBinAux l acc < (acc + 1) * 2 ^ l.length := by
  intro l
  induction l with
  | nil => intro acc _; simp [parseBinAux]
  | cons c l ih =>
    intro acc hall
    have hc : c = '0' ∨ c = '1' := hall c (List.mem_cons_self c l)
    have hv : bitVal c ≤ 1 := by
      rcases hc with h | h <;> simp [bitVal, h]
    simp only [parseBinAux, if_pos hc, List.length_cons]
    have h := ih (2 * acc + bitVal c) (fun x hx => hall x (List.mem_cons_of_mem c hx))
    have hle : (2 * acc + bitVal c + 1) * 2 ^ l.length ≤ (acc + 1) * 2 ^ (l.length + 1) := by
      rw [pow_succ]
      nlinarith [Nat.pos_pow_of_pos l.length (show 0 < 2 by norm_num)]
    omega

theorem parseBin_lt {l : List Char} (hall : ∀ x ∈ l, x = '0' ∨ x = '1') :
    parseBin l < 2 ^ l.length := by
  have := parseBinAux_lt l 0 hall
  simpa [parseBin] using this

theorem natToBits_length (k : Nat) : ∀ n, (natToBits k n).length = k := by
  induction k with
  | zero => intro n; rfl
  | succ k ih =>
    intro n
    simp only [natToBits, List.length_append, List.length_cons, List.length_nil, ih]

theorem natToBits_parseBin :
    ∀ (l : List Char), (∀ x ∈ l, x = '0' ∨ x = '1') →
      natToBits l.length (parseBin l) = l := by
  intro l
  induction l using List.reverseRecOn with
  | nil => intro _; rfl
  | append_singleton ys c ih =>
    intro hall
    have hys : ∀ x ∈ ys, x = '0' ∨ x = '1' :=
      fun x hx => hall x (List.mem_append_left _ hx)
    have hc : c = '0' ∨ c = '1' := hall c (List.mem_append_right _ (by simp))
    have hval : parseBin (ys ++ [c]) = 2 * parseBin ys + bitVal c :=
      parseBinAux_concat hc ys 0 hys
    have hv : bitVal c ≤ 1 := by
      rcases hc with h | h <;> simp [bitVal, h]
    rw [List.length_append, List.length_cons, List.length_nil, hval]
    simp only [natToBits]
    have hdiv : (2 * parseBin ys + bitVal c) / 2 = parseBin ys := by omega
    have hmod : (2 * parseBin ys + bitVal c) % 2 = bitVal c := by omega
    rw [hdiv, hmod, ih hys]
    congr 1
    rcases hc with h | h <;> simp [bitVal, h]

theorem unpack_pack_chunks :
    ∀ (m : Nat) (l : List Char), (∀ x ∈ l, x = '0' ∨ x = '1') → l.length = 8 * m →
      unpackAll (packBytes l) = l := by
  intro m
  induction m with
  | zero =>
    intro l _ hlen
    have : l = [] := List.length_eq_zero.mp (by omega)
    subst this
    rw [packBytes_nil]
    rfl
  | succ m ih =>
    intro l hall hlen
    match l, hlen with
    | c :: rest, hlen =>
      rw [packBytes_cons]
      have hlen8 : 8 ≤ (c :: rest).length := by
        rw [hlen]; omega
      have htake_all : ∀ x ∈ List.take 8 (c :: rest), x = '0' ∨ x = '1' :=
        fun x hx => hall x (List.mem_of_mem_take hx)
      have htake_len : (List.take 8 (c :: rest)).length = 8 := by
        rw [List.length_take]
        omega
      have hbound : parseBin (List.take 8 (c :: rest)) < 256 := by
        have := parseBin_lt htake_all
        rw [htake_len] at this
        norm_num at this
        exact this
      rw [Nat.mod_eq_of_lt hbound]
      simp only [unpackAll]
      have hnat := natToBits_parseBin _ htake_all
      rw [htake_len] at hnat
      have hdrop_all : ∀ x ∈ List.drop 8 (c :: rest), x = '0' ∨ x = '1' :=
        fun x hx => hall x (List.mem_of_mem_drop hx)
      have hdrop_len : (List.drop 8 (c :: rest)).length = 8 * m := by
        rw [List.length_drop, hlen]
        omega
      rw [hnat, ih (List.drop 8 (c :: rest)) hdrop_all hdrop_len,
        List.take_append_drop]

theorem pack_roundtrip_aux {bits : List Char}
    (hall : ∀ c ∈ bits, c = '0' ∨ c = '1') :
    (packBits bits).padding ≤ 7 ∧
      unpackBits (packBits bits).bytes (packBits bits).padding = bits := by
  have hpadlt : (8 - bits.length % 8) % 8 ≤ 7 := by omega
  constructor
  · simpa [packBits] using hpadlt
  · simp only [packBits, unpackBits]
    have hall2 : ∀ c ∈ bits ++ List.replicate ((8 - bits.length % 8) % 8) '0',
        c = '0' ∨ c = '1' := by
      intro c hc
      rcases List.mem_append.mp hc with h | h
      · exact hall c h
      · exact Or.inl (List.eq_of_mem_replicate h)
    have hlen : (bits ++ List.replicate ((8 - bits.length % 8) % 8) '0').length =
        8 * ((bits.length + (8 - bits.length % 8) % 8) / 8) := by
      rw [List.length_append, List.length_replicate]
      omega
    rw [unpack_pack_chunks _ _ hall2 hlen]
    by_cases hp : 0 < (8 - bits.length % 8) % 8
    · rw [if_pos hp]
      have : (bits ++ List.replicate ((8 - bits.length % 8) % 8) '0').length -
          (8 - bits.length % 8) % 8 = bits.length := by
        rw [List.length_append, List.length_replicate]
        omega
      rw [this]
      conv_rhs => rw [← List.take_left bits (List.replicate ((8 - bits.length % 8) % 8) '0')]
    · rw [if_neg hp]
      have : (8 - bits.length % 8) % 8 = 0 := by omega
      rw [this]
      simp

/-! ### Lemmas about the priority queue and the tree builder -/

theorem mem_insNat (n x : Nat) (l : List Nat) : x ∈ insNat n l ↔ x ∈ l ∨ x = n := by
  induction l with
  | nil => simp [insNat]
  | cons m rest ih =>
    simp only [insNat]
    split
    · simp only [List.mem_cons, ih]
      tauto
    · simp only [List.mem_cons]
      tauto

theorem mem_sortNat_fold (l : List Nat) :
    ∀ (acc : List Nat) (x : Nat),
      x ∈ l.foldl (fun a n => insNat n a) acc ↔ x ∈ acc ∨ x ∈ l := by
  induction l with
  | nil => simp
  | cons n rest ih =>
    intro acc x
    simp only [List.foldl_cons, ih, mem_insNat, List.mem_cons]
    tauto

theorem mem_sortNat (l : List Nat) (x : Nat) : x ∈ sortNat l ↔ x ∈ l := by
  unfold sortNat
  rw [mem_sortNat_fold]
  simp

theorem length_insNat (n : Nat) (l : List Nat) : (insNat n l).length = l.length + 1 := by
  induction l with
  | nil => rfl
  | cons m rest ih =>
    simp only [insNat]
    split
    · simp [ih]
    · simp

theorem length_sortNat_fold (l : List Nat) :
    ∀ acc : List Nat,
      (l.foldl (fun a n => insNat n a) acc).length = acc.length + l.length := by
  induction l with
  | nil => simp
  | cons n rest ih =>
    intro acc
    simp only [List.foldl_cons, ih, length_insNat, List.length_cons]
    omega

theorem length_sortNat (l : List Nat) : (sortNat l).length = l.length := by
  unfold sortNat
  rw [length_sortNat_fold]
  simp

theorem mem_insFreq (p x : Nat × Nat) (l : List (Nat × Nat)) :
    x ∈ insFreq p l ↔ x ∈ l ∨ x = p := by
  induction l with
  | nil => simp [insFreq]
  | cons q rest ih =>
    simp only [insFreq]
    split
    · simp only [List.mem_cons, ih]
      tauto
    · simp only [List.mem_cons]
      tauto

theorem mem_sortByFreq_fold (l : List (Nat × Nat)) :
    ∀ (acc : List (Nat × Nat)) (x : Nat × Nat),
      x ∈ l.foldl (fun a p => insFreq p a) acc ↔ x ∈ acc ∨ x ∈ l := by
  induction l with
  | nil => simp
  | cons p rest ih =>
    intro acc x
    simp only [List.foldl_cons, ih, mem_insFreq, List.mem_cons]
    tauto

theorem mem_sortByFreq (l : List (Nat × Nat)) (x : Nat × Nat) :
    x ∈ sortByFreq l ↔ x ∈ l := by
  unfold sortByFreq
  rw [mem_sortByFreq_fold]
  simp

theorem length_insFreq (p : Nat × Nat) (l : List (Nat × Nat)) :
    (insFreq p l).length = l.length + 1 := by
  induction l with
  | nil => rfl
  | cons q rest ih =>
    simp only [insFreq]
    split
    · simp [ih]
    · simp

theorem length_sortByFreq_fold (l : List (Nat × Nat)) :
    ∀ acc : List (Nat × Nat),
      (l.foldl (fun a p => insFreq p a) acc).length = acc.length + l.length := by
  induction l with
  | nil => simp
  | cons p rest ih =>
    intro acc
    simp only [List.foldl_cons, ih, length_insFreq, List.length_cons]
    omega

theorem length_sortByFreq (l : List (Nat × Nat)) : (sortByFreq l).length = l.length := by
  unfold sortByFreq
  rw [length_sortByFreq_fold]
  simp

theorem mem_enqueue (q : List HTree) (t x : HTree) :
    x ∈ enqueue q t ↔ x ∈ q ∨ x = t := by
  induction q with
  | nil => simp [enqueue]
  | cons y rest ih =>
    simp only [enqueue]
    split
    · simp only [List.mem_cons, ih]
      tauto
    · simp only [List.mem_cons]
      tauto

theorem length_enqueue (q : List HTree) (t : HTree) :
    (enqueue q t).length = q.length + 1 := by
  induction q with
  | nil => rfl
  | cons y rest ih =>
    simp only [enqueue]
    split
    · simp [ih]
    · simp

theorem enqueue_ne_nil (q : List HTree) (t : HTree) : enqueue q t ≠ [] := by
  apply List.ne_nil_of_length_pos
  rw [length_enqueue]
  omega

theorem mem_leafFold (l : List (Nat × Nat)) :
    ∀ (acc : List HTree) (x : HTree),
      x ∈ l.foldl (fun acc p => enqueue acc (leafOf p)) acc ↔
        x ∈ acc ∨ ∃ p ∈ l, x = leafOf p := by
  induction l with
  | nil => simp
  | cons p rest ih =>
    intro acc x
    simp only [List.foldl_cons, ih, mem_enqueue, List.mem_cons]
    constructor
    · rintro (⟨h | h⟩ | ⟨p2, hp2, h⟩)
      · exact Or.inl h
      · exact Or.inr ⟨p, Or.inl rfl, h⟩
      · exact Or.inr ⟨p2, Or.inr hp2, h⟩
    · rintro (h | ⟨p2, hp2 | hp2, h⟩)
      · exact Or.inl (Or.inl h)
      · subst hp2; exact Or.inl (Or.inr h)
      · exact Or.inr ⟨p2, hp2, h⟩

theorem length_leafFold (l : List (Nat × Nat)) :
    ∀ acc : List HTree,
      (l.foldl (fun acc p => enqueue acc (leafOf p)) acc).length =
        acc.length + l.length := by
  induction l with
  | nil => simp
  | cons p rest ih =>
    intro acc
    simp only [List.foldl_cons, ih, length_enqueue, List.length_cons]
    omega

theorem mergeSteps_isSome :
    ∀ (n : Nat) (q : List HTree), q ≠ [] → q.length ≤ n + 1 →
      ∃ t, mergeSteps n q = some t := by
  intro n
  induction n with
  | zero =>
    intro q hne hlen
    match q with
    | [] => exact absurd rfl hne
    | [t] => exact ⟨t, rfl⟩
    | a :: b :: rest => simp at hlen
  | succ n ih =>
    intro q hne hlen
    match q with
    | [] => exact absurd rfl hne
    | [t] => exact ⟨t, rfl⟩
    | a :: b :: rest =>
      apply ih (enqueue rest (.mk none (a.freqOf + b.freqOf) a b)) (enqueue_ne_nil _ _)
      rw [length_enqueue]
      simp only [List.length_cons] at hlen
      omega

theorem mergeSteps_inv :
    ∀ (n : Nat) (q : List HTree) (t : HTree), mergeSteps n q = some t →
      (∀ x ∈ q, Proper x) →
      Proper t ∧ ∀ b : Nat, (∃ x ∈ q, HasLeaf b x) → HasLeaf b t := by
  intro n
  induction n with
  | zero =>
    intro q t h hp
    match q with
    | [] => exact absurd h (by simp [mergeSteps])
    | [t0] =>
      have ht : t0 = t := by simpa [mergeSteps] using h
      subst ht
      refine ⟨hp t0 (by simp), ?_⟩
      rintro b ⟨x, hx, hleaf⟩
      simp only [List.mem_singleton] at hx
      subst hx
      exact hleaf
    | a :: b :: rest => exact absurd h (by simp [mergeSteps])
  | succ n ih =>
    intro q t h hp
    match q with
    | [] => exact absurd h (by simp [mergeSteps])
    | [t0] =>
      have ht : t0 = t := by simpa [mergeSteps] using h
      subst ht
      refine ⟨hp t0 (by simp), ?_⟩
      rintro b ⟨x, hx, hleaf⟩
      simp only [List.mem_singleton] at hx
      subst hx
      exact hleaf
    | a :: b :: rest =>
      have h' : mergeSteps n (enqueue rest (.mk none (a.freqOf + b.freqOf) a b)) =
          some t := h
      have hp' : ∀ x ∈ enqueue rest (.mk none (a.freqOf + b.freqOf) a b), Proper x := by
        intro x hx
        rcases (mem_enqueue _ _ _).mp hx with hx | rfl
        · exact hp x (by simp [hx])
        · exact Proper.node _ (hp a (by simp)) (hp b (by simp))
      obtain ⟨hpt, hleaf⟩ := ih _ t h' hp'
      refine ⟨hpt, ?_⟩
      rintro b0 ⟨x, hx, hl⟩
      apply hleaf
      simp only [List.mem_cons] at hx
      rcases hx with rfl | rfl | hx
      · exact ⟨.mk none (x.freqOf + b.freqOf) x b, (mem_enqueue _ _ _).mpr (Or.inr rfl),
          Or.inr (Or.inl hl)⟩
      · exact ⟨.mk none (a.freqOf + x.freqOf) a x, (mem_enqueue _ _ _).mpr (Or.inr rfl),
          Or.inr (Or.inr hl)⟩
      · exact ⟨x, (mem_enqueue _ _ _).mpr (Or.inl hx), hl⟩

theorem mergeSteps_internal :
    ∀ (n : Nat) (q : List HTree) (t : HTree), 2 ≤ q.length →
      (∀ x ∈ q, Proper x) → mergeSteps n q = some t →
      ∃ f l r, t = .mk none f l r ∧ Proper l ∧ Proper r := by
  intro n
  induction n with
  | zero =>
    intro q t hlen _ h
    match q with
    | [] => simp at hlen
    | [t0] => simp at hlen
    | a :: b :: rest => exact absurd h (by simp [mergeSteps])
  | succ n ih =>
    intro q t hlen hp h
    match q with
    | [] => simp at hlen
    | [t0] => simp at hlen
    | a :: b :: rest =>
      by_cases hrest : rest = []
      · subst hrest
        have hm : mergeSteps n (enqueue [] (.mk none (a.freqOf + b.freqOf) a b)) =
            some t := h
        have ht : (HTree.mk none (a.freqOf + b.freqOf) a b) = t := by
          simpa [mergeSteps, enqueue] using hm
        exact ⟨a.freqOf + b.freqOf, a, b, ht.symm, hp a (by simp), hp b (by simp)⟩
      · apply ih (enqueue rest (.mk none (a.freqOf + b.freqOf) a b)) t
        · rw [length_enqueue]
          have : 0 < rest.length := List.length_pos.mpr hrest
          omega
        · intro x hx
          rcases (mem_enqueue _ _ _).mp hx with hx | rfl
          · exact hp x (by simp [hx])
          · exact Proper.node _ (hp a (by simp)) (hp b (by simp))
        · exact h

theorem buildHuffmanTree_single (p : Nat × Nat) :
    buildHuffmanTree [p] = some (.mk none p.2 (leafOf p) .empty) := rfl

theorem buildHuffmanTree_general {ft : List (Nat × Nat)} (h2 : 2 ≤ ft.length) :
    ∃ t, buildHuffmanTree ft = some t ∧
      (∃ f l r, t = .mk none f l r ∧ Proper l ∧ Proper r) ∧
      (∀ p ∈ ft, HasLeaf p.1 t) := by
  have hlenq : ((sortByFreq ft).foldl (fun acc p => enqueue acc (leafOf p)) []).length =
      ft.length := by
    rw [length_leafFold, length_sortByFreq]
    simp
  have hproper : ∀ x ∈ (sortByFreq ft).foldl (fun acc p => enqueue acc (leafOf p)) [],
      Proper x := by
    intro x hx
    rcases (mem_leafFold _ _ _).mp hx with hx | ⟨p, _, rfl⟩
    · simp at hx
    · exact Proper.leaf p.1 p.2
  have hleafin : ∀ p ∈ ft,
      ∃ x ∈ (sortByFreq ft).foldl (fun acc p => enqueue acc (leafOf p)) [],
        HasLeaf p.1 x := by
    intro p hp
    refine ⟨leafOf p, ?_, Or.inl rfl⟩
    exact (mem_leafFold _ _ _).mpr (Or.inr ⟨p, (mem_sortByFreq _ _).mpr hp, rfl⟩)
  obtain ⟨x, y, rest, hq⟩ :
      ∃ x y rest, (sortByFreq ft).foldl (fun acc p => enqueue acc (leafOf p)) [] =
        x :: y :: rest := by
    match hq : (sortByFreq ft).foldl (fun acc p => enqueue acc (leafOf p)) [] with
    | [] => rw [hq] at hlenq; simp at hlenq; omega
    | [t0] => rw [hq] at hlenq; simp at hlenq; omega
    | x :: y :: rest => exact ⟨x, y, rest, rfl⟩
  have hbq : buildHuffmanTree ft = mergeLoop (x :: y :: rest) := by
    unfold buildHuffmanTree
    rw [hq]
  rw [hq] at hlenq hproper
  have hlen2 : 2 ≤ (x :: y :: rest).length := by simp
  obtain ⟨t, ht⟩ := mergeSteps_isSome (x :: y :: rest).length (x :: y :: rest)
    (by simp) (by omega)
  obtain ⟨hpt, hleaf⟩ := mergeSteps_inv _ _ _ ht hproper
  obtain ⟨f, l, r, hshape, hpl, hpr⟩ := mergeSteps_internal _ _ _ hlen2 hproper ht
  refine ⟨t, ?_, ⟨f, l, r, hshape, hpl, hpr⟩, ?_⟩
  · rw [hbq]
    unfold mergeLoop
    exact ht
  · intro p hp
    apply hleaf
    have := hleafin p hp
    rw [hq] at this
    exact this

/-! ### Lemmas about code tables and the decoder -/

theorem proper_ne_empty {t : HTree} (h : Proper t) : t ≠ .empty := by
  cases h <;> simp

theorem codePath_of_some {c0 f : Nat} {l r : HTree} {p : List Char} {ch : Nat}
    (h : CodePath (.mk (some c0) f l r) p ch) : p = [] ∧ ch = c0 := by
  cases h
  exact ⟨rfl, rfl⟩

theorem codePath_ne_empty_tree {t : HTree} {p : List Char} {ch : Nat}
    (h : CodePath t p ch) : t ≠ .empty := by
  cases h <;> simp

theorem codePath_ne_nil_of_none {f : Nat} {l r : HTree} {p : List Char} {ch : Nat}
    (h : CodePath (.mk none f l r) p ch) : p ≠ [] := by
  cases h <;> simp

theorem codePath_chars {t : HTree} {p : List Char} {ch : Nat}
    (h : CodePath t p ch) : ∀ c ∈ p, c = '0' ∨ c = '1' := by
  induction h with
  | stop ch0 f l r => simp
  | goLeft f r hq ih =>
    intro c hc
    rcases List.mem_cons.mp hc with rfl | hc
    · exact Or.inl rfl
    · exact ih c hc
  | goRight f l hq ih =>
    intro c hc
    rcases List.mem_cons.mp hc with rfl | hc
    · exact Or.inr rfl
    · exact ih c hc

theorem codePath_shape {t : HTree} {p : List Char} {ch : Nat} (h : CodePath t p ch) :
    (p = [] ∧ ∃ f2 l2 r2, t = .mk (some ch) f2 l2 r2) ∨
      (p ≠ [] ∧ ∃ f2 l2 r2, t = .mk none f2 l2 r2) := by
  cases h with
  | stop ch0 f l r => exact Or.inl ⟨rfl, f, l, r, rfl⟩
  | goLeft f r hq => exact Or.inr ⟨by simp, f, _, r, rfl⟩
  | goRight f l hq => exact Or.inr ⟨by simp, f, l, _, rfl⟩

theorem codePath_prefix_eq {t : HTree} {q1 q2 : List Char} {ch1 ch2 : Nat}
    (h1 : CodePath t q1 ch1) : CodePath t q2 ch2 → q1 <+: q2 → q1 = q2 := by
  induction h1 generalizing q2 ch2 with
  | stop ch0 f l r =>
    intro h2 _
    cases h2
    rfl
  | goLeft f r hq ih =>
    intro h2 hpre
    obtain ⟨s, hs⟩ := hpre
    cases h2 with
    | goLeft f2 r2 h2q =>
      simp only [List.cons_append, List.cons.injEq] at hs
      rw [ih h2q ⟨s, hs.2⟩]
    | goRight f2 l2 h2q =>
      simp only [List.cons_append, List.cons.injEq] at hs
      exact absurd hs.1 (by decide)
  | goRight f l hq ih =>
    intro h2 hpre
    obtain ⟨s, hs⟩ := hpre
    cases h2 with
    | goLeft f2 r2 h2q =>
      simp only [List.cons_append, List.cons.injEq] at hs
      exact absurd hs.1 (by decide)
    | goRight f2 l2 h2q =>
      simp only [List.cons_append, List.cons.injEq] at hs
      rw [ih h2q ⟨s, hs.2⟩]

theorem codesAux_spec {t : HTree} (hp : Proper t) :
    ∀ (pre : List Char), pre ≠ [] → ∀ (ch : Nat) (p : List Char),
      ((ch, p) ∈ codesAux t pre ↔ ∃ q, CodePath t q ch ∧ p = pre ++ q) := by
  induction hp with
  | leaf ch0 f =>
    intro pre hpre ch p
    simp only [codesAux, if_neg hpre, List.mem_singleton, Prod.mk.injEq]
    constructor
    · rintro ⟨rfl, rfl⟩
      exact ⟨[], CodePath.stop _ f .empty .empty, by simp⟩
    · rintro ⟨q, hq, rfl⟩
      obtain ⟨rfl, rfl⟩ := codePath_of_some hq
      exact ⟨rfl, by simp⟩
  | node f hpl hpr ihl ihr =>
    rename_i l r
    intro pre hpre ch p
    simp only [codesAux, if_neg (proper_ne_empty hpl), if_neg (proper_ne_empty hpr),
      List.mem_append]
    rw [ihl (pre ++ ['0']) (by simp), ihr (pre ++ ['1']) (by simp)]
    constructor
    · rintro (⟨q, hq, rfl⟩ | ⟨q, hq, rfl⟩)
      · exact ⟨'0' :: q, CodePath.goLeft f r hq, by simp⟩
      · exact ⟨'1' :: q, CodePath.goRight f l hq, by simp⟩
    · rintro ⟨q, hq, rfl⟩
      cases hq with
      | goLeft f2 r2 h2q =>
        exact Or.inl ⟨_, h2q, by simp⟩
      | goRight f2 l2 h2q =>
        exact Or.inr ⟨_, h2q, by simp⟩

theorem buildCodes_spec {f : Nat} {l r : HTree} (hpl : Proper l) (hpr : Proper r)
    (ch : Nat) (p : List Char) :
    ((ch, p) ∈ buildCodes (.mk none f l r) ↔ CodePath (.mk none f l r) p ch) := by
  unfold buildCodes
  simp only [codesAux, if_neg (proper_ne_empty hpl), if_neg (proper_ne_empty hpr),
    List.mem_append, List.nil_append]
  rw [codesAux_spec hpl ['0'] (by simp), codesAux_spec hpr ['1'] (by simp)]
  constructor
  · rintro (⟨q, hq, rfl⟩ | ⟨q, hq, rfl⟩)
    · exact CodePath.goLeft f r hq
    · exact CodePath.goRight f l hq
  · intro h
    cases h with
    | goLeft f2 r2 h2q => exact Or.inl ⟨_, h2q, rfl⟩
    | goRight f2 l2 h2q => exact Or.inr ⟨_, h2q, rfl⟩

theorem hasLeaf_path {t : HTree} (hp : Proper t) :
    ∀ ch : Nat, HasLeaf ch t → ∃ p, CodePath t p ch := by
  induction hp with
  | leaf ch0 f =>
    intro ch h
    rcases h with h | h | h
    · obtain rfl : ch0 = ch := by simpa using h
      exact ⟨[], CodePath.stop ch0 f .empty .empty⟩
    · exact absurd h id
    · exact absurd h id
  | node f hpl hpr ihl ihr =>
    rename_i l r
    intro ch h
    rcases h with h | h | h
    · exact absurd h (by simp)
    · obtain ⟨p, hp2⟩ := ihl ch h
      exact ⟨'0' :: p, CodePath.goLeft f r hp2⟩
    · obtain ⟨p, hp2⟩ := ihr ch h
      exact ⟨'1' :: p, CodePath.goRight f l hp2⟩

theorem lookup_mem_pairs :
    ∀ {l : List (Nat × List Char)} {a : Nat} {v : List Char},
      List.lookup a l = some v → (a, v) ∈ l := by
  intro l
  induction l with
  | nil => intro a v h; simp [List.lookup] at h
  | cons q rest ih =>
    intro a v h
    match q with
    | (k, w) =>
      rw [List.lookup] at h
      cases hk : (a == k) with
      | true =>
        simp only [hk] at h
        obtain rfl : w = v := by simpa using h
        obtain rfl : a = k := by simpa using hk
        exact List.mem_cons_self _ _
      | false =>
        simp only [hk] at h
        exact List.mem_cons_of_mem _ (ih h)

theorem lookup_isSome_pairs :
    ∀ {l : List (Nat × List Char)} {a : Nat} {v : List Char},
      (a, v) ∈ l → ∃ w, List.lookup a l = some w := by
  intro l
  induction l with
  | nil => intro a v h; simp at h
  | cons q rest ih =>
    intro a v h
    match q with
    | (k, w) =>
      rw [List.lookup]
      cases hk : (a == k) with
      | true => exact ⟨w, by simp only [hk]⟩
      | false =>
        simp only [hk]
        rcases List.mem_cons.mp h with heq | hmem
        · exfalso
          have hak : a = k := congrArg Prod.fst heq
          rw [hak] at hk
          simp at hk
        · exact ih hmem

theorem decode_path (root : HTree) {cur : HTree} {p : List Char} {ch : Nat}
    (h : CodePath cur p ch) : p ≠ [] →
      ∀ rest : List Char,
        decodeBits root (p ++ rest) cur = ch :: decodeBits root rest root := by
  induction h with
  | stop ch0 f l r =>
    intro hne
    exact absurd rfl hne
  | goLeft f r hq ih =>
    rename_i l p0 ch0
    intro _ rest
    rw [List.cons_append]
    rcases codePath_shape hq with ⟨rfl, f2, l2, r2, rfl⟩ | ⟨hne0, f2, l2, r2, rfl⟩
    · simp [decodeBits, HTree.leftOf, HTree.charOf]
    · have hstep :
          decodeBits root ('0' :: (p0 ++ rest)) (.mk none f (.mk none f2 l2 r2) r) =
            decodeBits root (p0 ++ rest) (.mk none f2 l2 r2) := by
        simp [decodeBits, HTree.leftOf, HTree.charOf]
      rw [hstep, ih hne0 rest]
  | goRight f l hq ih =>
    rename_i r p0 ch0
    intro _ rest
    rw [List.cons_append]
    have h10 : ('1' : Char) ≠ '0' := by decide
    rcases codePath_shape hq with ⟨rfl, f2, l2, r2, rfl⟩ | ⟨hne0, f2, l2, r2, rfl⟩
    · simp [decodeBits, HTree.leftOf, HTree.rightOf, HTree.charOf, h10]
    · have hstep :
          decodeBits root ('1' :: (p0 ++ rest)) (.mk none f l (.mk none f2 l2 r2)) =
            decodeBits root (p0 ++ rest) (.mk none f2 l2 r2) := by
        simp [decodeBits, HTree.leftOf, HTree.rightOf, HTree.charOf, h10]
      rw [hstep, ih hne0 rest]

theorem decode_encode {f : Nat} {l r : HTree} (codes : List (Nat × List Char)) :
    ∀ msg : List Nat,
      (∀ b ∈ msg, ∃ p, codes.lookup b = some p ∧ CodePath (.mk none f l r) p b) →
      decodeBits (.mk none f l r) (encodeData codes msg) (.mk none f l r) = msg := by
  intro msg
  induction msg with
  | nil => intro _; rfl
  | cons b rest ih =>
    intro h
    obtain ⟨p, hlook, hpath⟩ := h b (List.mem_cons_self b rest)
    simp only [encodeData, hlook, Option.getD_some]
    have hne : p ≠ [] := codePath_ne_nil_of_none hpath
    rw [decode_path _ hpath hne, ih (fun x hx => h x (List.mem_cons_of_mem _ hx))]

theorem encode_allbits (codes : List (Nat × List Char)) :
    ∀ msg : List Nat,
      (∀ b ∈ msg, ∃ p, codes.lookup b = some p ∧ (∀ c ∈ p, c = '0' ∨ c = '1')) →
      ∀ c ∈ encodeData codes msg, c = '0' ∨ c = '1' := by
  intro msg
  induction msg with
  | nil => intro _ c hc; simp [encodeData] at hc
  | cons b rest ih =>
    intro h c hc
    obtain ⟨p, hlook, hbits⟩ := h b (List.mem_cons_self b rest)
    simp only [encodeData, hlook, Option.getD_some] at hc
    rcases List.mem_append.mp hc with hc | hc
    · exact hbits c hc
    · exact ih (fun x hx => h x (List.mem_cons_of_mem _ hx)) c hc

/-! ### Lemmas about the container pipeline -/

theorem deserialize_serialize (t : HTree) : deserializeTree (serializeTree t) = t := by
  induction t with
  | empty => rfl
  | mk c f l r ihl ihr => simp [serializeTree, deserializeTree, ihl, ihr]

theorem adjust_fields (res : CompressResult) (r : Rat) :
    (adjustCompressionResult res r).compressed = res.compressed ∧
      (adjustCompressionResult res r).tree = res.tree ∧
      (adjustCompressionResult res r).padding = res.padding ∧
      (adjustCompressionResult res r).originalSize = res.originalSize ∧
      (adjustCompressionResult res r).uniqueBytes = res.uniqueBytes := by
  unfold adjustCompressionResult
  split <;> simp

theorem mem_table_of_mem {data : List Nat} {b : Nat} (h : b ∈ data) :
    (b, boostFreq b (data.count b)) ∈ buildFrequencyTable data := by
  unfold buildFrequencyTable
  exact List.mem_map.mpr ⟨b, (mem_sortNat _ _).mpr (List.mem_dedup.mpr h), rfl⟩

theorem buildFrequencyTable_ne_nil {data : List Nat} (h : data ≠ []) :
    buildFrequencyTable data ≠ [] := by
  match data with
  | [] => exact absurd rfl h
  | x :: rest =>
    exact List.ne_nil_of_mem (mem_table_of_mem (List.mem_cons_self x rest))

theorem table_singleton {data : List Nat}
    (h : (buildFrequencyTable data).length = 1) :
    ∃ v, (∀ y ∈ data, y = v) ∧
      buildFrequencyTable data = [(v, boostFreq v (data.count v))] := by
  have h2 : data.dedup.length = 1 := by
    have h3 := h
    unfold buildFrequencyTable at h3
    rwa [List.length_map, length_sortNat] at h3
  obtain ⟨v, hv⟩ := List.length_eq_one.mp h2
  refine ⟨v, ?_, ?_⟩
  · intro y hy
    have hm : y ∈ data.dedup := List.mem_dedup.mpr hy
    rw [hv] at hm
    simpa using hm
  · unfold buildFrequencyTable
    rw [hv]
    rfl

theorem pipelineRoundtrip_ok {data : List Nat} {res : CompressResult}
    (hc : huffmanCompress data = .ok res) (hne : res.tree ≠ .empty) :
    pipelineRoundtrip data =
      some (huffmanDecompress res.compressed res.tree res.padding res.originalSize) := by
  obtain ⟨h1, h2, h3, h4, _⟩ := adjust_fields res 0
  unfold pipelineRoundtrip processAndDownload
  rw [hc]
  simp only [assembleContainer, deserialize_serialize, h1, h2, h3, h4]
  rw [if_neg hne]

theorem compress_single {data : List Nat}
    (h1 : (buildFrequencyTable (preprocessData data)).length = 1) {v : Nat}
    (hft : buildFrequencyTable (preprocessData data) =
      [(v, boostFreq v ((preprocessData data).count v))]) :
    huffmanCompress data = .ok
      { compressed := [v],
        tree := .mk (some v) (boostFreq v ((preprocessData data).count v)) .empty .empty,
        codes := [(v, ['0'])], originalSize := data.length, compressedSize := 1,
        compressionRatio := ((data.length : Rat) - 1) / (data.length : Rat) * 100,
        padding := 0, uniqueBytes := 1, singleChar := true,
        charCount := boostFreq v ((preprocessData data).count v) } := by
  simp only [huffmanCompress, hft]
  simp [List.headD]

theorem compress_general {data : List Nat}
    (h1 : (buildFrequencyTable (preprocessData data)).length ≠ 1) {t : HTree}
    (ht : buildHuffmanTree (buildFrequencyTable (preprocessData data)) = some t) :
    huffmanCompress data = .ok
      { compressed :=
          (packBits (encodeData (buildCodes t) (preprocessData data))).bytes,
        tree := t, codes := buildCodes t, originalSize := data.length,
        compressedSize :=
          (packBits (encodeData (buildCodes t) (preprocessData data))).bytes.length,
        compressionRatio :=
          if 0 < data.length then
            (((data.length : Rat) -
              (((packBits (encodeData (buildCodes t) (preprocessData data))).bytes.length : Rat))) /
              (data.length : Rat)) * 100
          else 0,
        padding := (packBits (encodeData (buildCodes t) (preprocessData data))).padding,
        uniqueBytes := (buildFrequencyTable (preprocessData data)).length,
        singleChar := false, charCount := 0 } := by
  simp only [huffmanCompress, if_neg h1, ht]

theorem roundtrip_main {data : List Nat} (hne : data ≠ [])
    (hsent : ∀ b ∈ data, b ≠ 255) : pipelineRoundtrip data = some data := by
  have hprene : preprocessData data ≠ [] := preprocess_ne_nil hne
  by_cases h1 : (buildFrequencyTable (preprocessData data)).length = 1
  · obtain ⟨v, hall, hft⟩ := table_singleton h1
    have hc := compress_single h1 hft
    rw [pipelineRoundtrip_ok hc (by simp)]
    have hdata : data = List.replicate data.length v :=
      preprocess_const_aux data.length data v le_rfl hsent hall
    have hdec : huffmanDecompress [v]
        (.mk (some v) (boostFreq v ((preprocessData data).count v)) .empty .empty)
        0 data.length = List.replicate data.length v := rfl
    rw [hdec, ← hdata]
  · have hft_ne : buildFrequencyTable (preprocessData data) ≠ [] :=
      buildFrequencyTable_ne_nil hprene
    have h2 : 2 ≤ (buildFrequencyTable (preprocessData data)).length := by
      have := List.length_pos.mpr hft_ne
      omega
    obtain ⟨t, ht, ⟨f, l, r, hshape, hpl, hpr⟩, hleaves⟩ := buildHuffmanTree_general h2
    subst hshape
    have hc := compress_general h1 ht
    rw [pipelineRoundtrip_ok hc (by simp)]
    have hproot : Proper (.mk none f l r) := Proper.node f hpl hpr
    have hlookup : ∀ b ∈ preprocessData data,
        ∃ w, (buildCodes (.mk none f l r)).lookup b = some w ∧
          CodePath (.mk none f l r) w b := by
      intro b hb
      have hkey := mem_table_of_mem hb
      have hhl : HasLeaf b (.mk none f l r) := hleaves _ hkey
      obtain ⟨p, hp⟩ := hasLeaf_path hproot b hhl
      have hmem : (b, p) ∈ buildCodes (.mk none f l r) :=
        (buildCodes_spec hpl hpr b p).mpr hp
      obtain ⟨w, hw⟩ := lookup_isSome_pairs hmem
      have hwmem : (b, w) ∈ buildCodes (.mk none f l r) := lookup_mem_pairs hw
      exact ⟨w, hw, (buildCodes_spec hpl hpr b w).mp hwmem⟩
    have hbits : ∀ c ∈ encodeData (buildCodes (.mk none f l r)) (preprocessData data),
        c = '0' ∨ c = '1' := by
      apply encode_allbits
      intro b hb
      obtain ⟨w, hw, hpath⟩ := hlookup b hb
      exact ⟨w, hw, codePath_chars hpath⟩
    obtain ⟨hpad, hunpack⟩ := pack_roundtrip_aux hbits
    have hdec : huffmanDecompress
        (packBits (encodeData (buildCodes (.mk none f l r)) (preprocessData data))).bytes
        (.mk none f l r)
        (packBits (encodeData (buildCodes (.mk none f l r)) (preprocessData data))).padding
        data.length =
          inverseRLE (decodeBits (.mk none f l r)
            (unpackBits
              (packBits (encodeData (buildCodes (.mk none f l r)) (preprocessData data))).bytes
              (packBits (encodeData (buildCodes (.mk none f l r)) (preprocessData data))).padding)
            (.mk none f l r)) := rfl
    rw [hdec, hunpack, decode_encode _ _ hlookup,
      rle_roundtrip_aux data.length data le_rfl hsent]

/-! ### Additional helpers for the container claims -/

theorem adjust_ratio_of_gt {res : CompressResult} (h : 20 < res.compressionRatio)
    (r : Rat) : (adjustCompressionResult res r).compressionRatio = 15 + r := by
  unfold adjustCompressionResult
  rw [if_pos h]

theorem processAndDownload_ratio {data : List Nat} {res : CompressResult}
    (hc : huffmanCompress data = .ok res) (r : Rat) (fileName : String) :
    (processAndDownload data fileName r).toOption.map
        (fun c => c.metadata.compressionRatio) =
      some ((adjustCompressionResult res r).compressionRatio) := by
  unfold processAndDownload
  rw [hc]
  rfl

theorem c3_ratio_eval (r : Rat) :
    (processAndDownload (List.replicate 100 7) "file.pdf" r).toOption.map
        (fun c => c.metadata.compressionRatio) = some (15 + r) := by
  have ht : buildHuffmanTree (buildFrequencyTable (preprocessData (List.replicate 100 7))) =
      some (HTree.mk none 3 (.mk (some 255) 1 .empty .empty)
        (.mk none 2 (.mk (some 7) 1 .empty .empty) (.mk (some 100) 1 .empty .empty))) := by
    decide
  have hc := compress_general (by decide) ht
  have hblen : (packBits (encodeData
      (buildCodes (HTree.mk none 3 (.mk (some 255) 1 .empty .empty)
        (.mk none 2 (.mk (some 7) 1 .empty .empty) (.mk (some 100) 1 .empty .empty))))
      (preprocessData (List.replicate 100 7)))).bytes.length = 1 := by decide
  rw [processAndDownload_ratio hc r]
  congr 1
  refine adjust_ratio_of_gt ?_ r
  norm_num [hblen]

/-! ### Claim C1 — full-pipeline round trip -/

/-- C1 counterexample: a byte buffer containing a natural 255 followed by
two more bytes is corrupted by the round trip — `[255, 1, 2]` compresses
and decompresses to `[2]`, because the inverse RLE misreads the literal
255 as an escape sentinel. -/
theorem c1_counterexample : pipelineRoundtrip [255, 1, 2] ≠ some [255, 1, 2] := by
  have ht : buildHuffmanTree (buildFrequencyTable (preprocessData [255, 1, 2])) =
      some (HTree.mk none 3 (.mk (some 255) 1 .empty .empty)
        (.mk none 2 (.mk (some 1) 1 .empty .empty) (.mk (some 2) 1 .empty .empty))) := by
    decide
  have hc := compress_general (by decide) ht
  rw [pipelineRoundtrip_ok hc (by decide)]
  decide

/-- C1 (corrected): for every nonempty byte buffer in which the sentinel
byte value 255 does not occur, decompressing the compressed artifact
(RLE, Huffman encode, bit pack, container assembly; then tree rebuild,
bit unpack, tree-walk decode, inverse RLE) returns exactly the input;
this covers distinct-byte counts 1 (the single-leaf path), 2 and more. -/
theorem c1_roundtrip_amended (data : List Nat) (hne : data ≠ [])
    (hbyte : ∀ b ∈ data, b < 256) (hsent : ∀ b ∈ data, b ≠ 255) :
    pipelineRoundtrip data = some data :=
  roundtrip_main hne hsent

/-- C1 witness: the spec's own concrete scenario `[65,65,65,65,65,66]`
(five 'A', one 'B') round-trips exactly. -/
theorem c1_witness :
    pipelineRoundtrip [65, 65, 65, 65, 65, 66] = some [65, 65, 65, 65, 65, 66] :=
  c1_roundtrip_amended [65, 65, 65, 65, 65, 66] (by decide) (by decide) (by decide)

/-! ### Claim C2 — RLE round trip -/

/-- C2 counterexample: the forward transform emits `[255, 1, 2]` literally
(all runs have length 1 < 4), but the inverse reads the natural 255 as an
escape sentinel and returns `[2]`. -/
theorem c2_counterexample : inverseRLE (preprocessData [255, 1, 2]) ≠ [255, 1, 2] := by
  decide

/-- C2 (corrected): the inverse RLE transform undoes the forward RLE
transform exactly on every byte buffer in which the sentinel byte 255
does not occur, including buffers with runs of length exactly 3 (emitted
literally) and exactly 4 (emitted as an escape triplet). -/
theorem c2_rle_roundtrip (data : List Nat) (hbyte : ∀ b ∈ data, b < 256)
    (hsent : ∀ b ∈ data, b ≠ 255) : inverseRLE (preprocessData data) = data :=
  rle_roundtrip_aux data.length data le_rfl hsent

/-- C2 witness: a buffer with a run of length exactly 3 and a run of
length exactly 4 round-trips. -/
theorem c2_witness :
    inverseRLE (preprocessData [9, 9, 9, 8, 8, 8, 8]) = [9, 9, 9, 8, 8, 8, 8] :=
  c2_rle_roundtrip [9, 9, 9, 8, 8, 8, 8] (by decide) (by decide)

/-! ### Claim C3 — determinism of compression -/

/-- C3 counterexample: compressing `List.replicate 100 7` reports a
compression ratio above 20, so `processFile` overwrites the metadata's
`compressionRatio` with `15 + Math.random() * 5`; two runs whose random
draws are 0 and 1 produce containers whose metadata differ (ratio 15
versus 16), so the containers are not byte-identical. -/
theorem c3_counterexample :
    (processAndDownload (List.replicate 100 7) "file.pdf" 0).toOption.map
        (fun c => c.metadata.compressionRatio) ≠
      (processAndDownload (List.replicate 100 7) "file.pdf" 1).toOption.map
        (fun c => c.metadata.compressionRatio) := by
  rw [c3_ratio_eval 0, c3_ratio_eval 1]
  norm_num

/-- C3 (corrected): the compression pipeline itself is a pure function, and
whenever the computed compression ratio is at most 20 the random
adjustment in `processFile` is skipped, so two runs on the same input
(with any two random draws) yield identical containers: same serialized
tree, same packed payload, same padding, identical metadata.  When the
ratio exceeds 20 the metadata's `compressionRatio` is randomized (see the
counterexample). -/
theorem c3_deterministic_amended (data : List Nat) (fileName : String) (r1 r2 : Rat)
    (res : CompressResult) (hok : huffmanCompress data = .ok res)
    (hle : res.compressionRatio ≤ 20) :
    processAndDownload data fileName r1 = processAndDownload data fileName r2 := by
  unfold processAndDownload
  rw [hok]
  unfold adjustCompressionResult
  simp only [if_neg (not_lt.mpr hle)]

/-- C3 witness: the one-byte buffer `[7]` compresses with ratio 0, and its
container is identical across two runs with different random draws. -/
theorem c3_witness :
    processAndDownload [7] "x" 0 = processAndDownload [7] "x" 1 :=
  c3_deterministic_amended [7] "x" 0 1 _ rfl (by norm_num)

/-! ### Claim C4 — the [7,7,7,7,7] scenario -/

/-- C4 counterexample: compression of `[7,7,7,7,7]` does not take the
single-leaf special-case path — the RLE preprocessor collapses the run to
the triplet `[255, 5, 7]`, whose frequency table has three distinct
bytes, so `singleChar` is false. -/
theorem c4_counterexample :
    (huffmanCompress [7, 7, 7, 7, 7]).toOption.map (fun res => res.singleChar) =
      some false := by
  decide

/-- C4 (corrected): for the input `[7,7,7,7,7]`, preprocessing stores the
run as the escape triplet `[255, 5, 7]` (value 7 with count 5), so the
frequency table has 3 distinct byte values and compression takes the
general Huffman path; decompressing the artifact still reproduces exactly
5 bytes of value 7. -/
theorem c4_roundtrip_general :
    preprocessData [7, 7, 7, 7, 7] = [255, 5, 7] ∧
      (huffmanCompress [7, 7, 7, 7, 7]).toOption.map (fun res => res.uniqueBytes) =
        some 3 ∧
      pipelineRoundtrip [7, 7, 7, 7, 7] = some [7, 7, 7, 7, 7] :=
  ⟨by decide, by decide, roundtrip_main (by decide) (by decide)⟩

/-! ### Claim C5 — empty input -/

/-- C5: on the zero-length buffer the frequency table is empty,
`buildHuffmanTree` dequeues `undefined` from the empty priority queue and
`buildCodes` dereferences it, so `huffmanCompress` throws instead of
returning a degenerate zero-size result (the claim describes the intended
behaviour; the thrown `TypeError` is the modelled `Except.error`). -/
theorem c5_empty_input_error :
    huffmanCompress [] =
      .error "TypeError: Cannot read properties of undefined (reading char)" := rfl

/-! ### Claim C6 — malformed bit streams -/

/-- C6: decoding the bit string "10" against a tree whose root has only a
left child (a leaf for byte 5) does not fail — the '1' bit, which has no
corresponding child, is silently dropped (the node is left unchanged) and
decoding continues past it, emitting 5 from the following '0' bit.  The
claim (and the spec) require a decode failure here instead. -/
theorem c6_silent_bit_drop :
    decodeBits (HTree.mk none 1 (.mk (some 5) 1 .empty .empty) .empty) ['1', '0']
      (HTree.mk none 1 (.mk (some 5) 1 .empty .empty) .empty) = [5] := rfl

/-! ### Claim C7 — container bounds checks -/

/-- C7 (confirmed): the decompress-side container parser rejects, with an
error and no partial result, every buffer shorter than 8 bytes and every
buffer whose declared metadata length M plus tree length T satisfies
8 + M + T > total length. -/
theorem c7_container_bounds (data : List Nat)
    (h : data.length < 8 ∨ data.length < 8 + readU32LE data 0 + readU32LE data 4) :
    ∃ e, parseHufContainer data = Except.error e := by
  simp only [parseHufContainer]
  by_cases h8 : data.length < 8
  · rw [if_pos h8]
    exact ⟨_, rfl⟩
  · have h' : data.length < 8 + readU32LE data 0 + readU32LE data 4 := by
      rcases h with h | h
      · omega
      · exact h
    rw [if_neg h8, if_pos h']
    exact ⟨_, rfl⟩

/-- C7 witness: a 7-byte buffer is rejected, and a 12-byte buffer whose
declared metadata length is 255 is rejected. -/
theorem c7_witness :
    (∃ e, parseHufContainer (List.replicate 7 0) = Except.error e) ∧
      ∃ e, parseHufContainer (255 :: List.replicate 11 0) = Except.error e :=
  ⟨c7_container_bounds _ (Or.inl (by decide)),
    c7_container_bounds _ (Or.inr (by decide))⟩

/-! ### Claim C8 — prefix-free code tables -/

/-- C8 (confirmed): for every nonempty frequency table, the tree builder
produces a tree whose code table has only nonempty codes over the
characters '0' and '1', no code is a prefix of another (distinct) code,
and a single-entry table yields the one-bit code "0" for its byte. -/
theorem c8_codes_prefix_free (ft : List (Nat × Nat)) (hne : ft ≠ []) :
    ∃ t, buildHuffmanTree ft = some t ∧
      (∀ p ∈ buildCodes t, p.2 ≠ [] ∧ ∀ c ∈ p.2, c = '0' ∨ c = '1') ∧
      (∀ p ∈ buildCodes t, ∀ q ∈ buildCodes t, p.2 ≠ q.2 → ¬ p.2 <+: q.2) ∧
      (∀ b f, ft = [(b, f)] → buildCodes t = [(b, ['0'])]) := by
  by_cases h1 : ft.length = 1
  · obtain ⟨p0, hp0⟩ := List.length_eq_one.mp h1
    subst hp0
    have hcodes : buildCodes (HTree.mk none p0.2 (leafOf p0) .empty) =
        [(p0.1, ['0'])] := rfl
    refine ⟨_, buildHuffmanTree_single p0, ?_, ?_, ?_⟩
    · intro p hp
      rw [hcodes] at hp
      simp only [List.mem_singleton] at hp
      subst hp
      refine ⟨by simp, ?_⟩
      intro c hc
      simp only [List.mem_singleton] at hc
      exact Or.inl hc
    · intro p hp q hq hne2 _
      rw [hcodes] at hp hq
      simp only [List.mem_singleton] at hp hq
      rw [hp, hq] at hne2
      exact absurd rfl hne2
    · intro b f heq
      have hp0 : p0 = (b, f) := by simpa using heq
      subst hp0
      rw [hcodes]
  · have hftpos : 0 < ft.length := List.length_pos.mpr hne
    have h2 : 2 ≤ ft.length := by omega
    obtain ⟨t, ht, ⟨f, l, r, rfl, hpl, hpr⟩, _⟩ := buildHuffmanTree_general h2
    refine ⟨_, ht, ?_, ?_, ?_⟩
    · rintro ⟨pb, pc⟩ hp
      have hpath := (buildCodes_spec hpl hpr pb pc).mp hp
      exact ⟨codePath_ne_nil_of_none hpath, codePath_chars hpath⟩
    · rintro ⟨pb, pc⟩ hp ⟨qb, qc⟩ hq hne2 hpre
      have hp2 := (buildCodes_spec hpl hpr pb pc).mp hp
      have hq2 := (buildCodes_spec hpl hpr qb qc).mp hq
      exact hne2 (codePath_prefix_eq hp2 hq2 hpre)
    · intro b f2 heq
      rw [heq] at h1
      simp at h1

/-- C8 witness: the two-entry table `[(3, 1), (5, 2)]`. -/
theorem c8_witness :
    ∃ t, buildHuffmanTree [((3 : Nat), (1 : Nat)), (5, 2)] = some t ∧
      (∀ p ∈ buildCodes t, p.2 ≠ [] ∧ ∀ c ∈ p.2, c = '0' ∨ c = '1') ∧
      (∀ p ∈ buildCodes t, ∀ q ∈ buildCodes t, p.2 ≠ q.2 → ¬ p.2 <+: q.2) ∧
      (∀ b f, [((3 : Nat), (1 : Nat)), (5, 2)] = [(b, f)] →
        buildCodes t = [(b, ['0'])]) :=
  c8_codes_prefix_free [(3, 1), (5, 2)] (by decide)

/-! ### Claim C9 — bit packer round trip -/

/-- C9 (confirmed): for every bit string, the packer's padding count is in
[0, 7] and unpacking the packed bytes with that padding count reproduces
the bit string exactly (proved for all lengths, hence in particular for
lengths 0 to 100). -/
theorem c9_pack_unpack (bits : List Char) (h : ∀ c ∈ bits, c = '0' ∨ c = '1') :
    (packBits bits).padding ≤ 7 ∧
      unpackBits (packBits bits).bytes (packBits bits).padding = bits :=
  pack_roundtrip_aux h

/-- C9 witness: the three-bit string "101". -/
theorem c9_witness :
    (packBits ['1', '0', '1']).padding ≤ 7 ∧
      unpackBits (packBits ['1', '0', '1']).bytes (packBits ['1', '0', '1']).padding =
        ['1', '0', '1'] :=
  c9_pack_unpack ['1', '0', '1'] (by decide)

/-! ### Claim C10 — RLE never expands -/

/-- C10 (confirmed): the forward RLE transform's output is never longer
than its input — literal runs keep their length and every escape triplet
(3 bytes) replaces a run of at least 4 bytes. -/
theorem c10_no_expansion (data : List Nat) :
    (preprocessData data).length ≤ data.length :=
  preprocess_length_aux data.length data le_rfl
